import Mathlib

/-!
Shallow embedding of the pane/dock/item workspace subsystem (`src/pane.rs`,
`src/dock.rs`, `src/item.rs`).

Items are identified by their entity id, modelled as `Nat`.  A `Pane` keeps the
ordered list of item ids, the active item index and the zoom flag; the UI-only
state (focus handles, scroll handles, subscriptions, drag state) has no effect
on the item-management logic and is not modelled.  Pane events and item
lifecycle hooks (`deactivated`) are recorded in an output list.  A Rust panic
(out-of-bounds `Vec::remove`) is modelled by returning `none`.
-/

/-- Pane events (`Event` in `pane.rs`), restricted to the constructors the
modelled operations can emit, plus `Deactivated` which records a call to the
removed/previous item's `deactivated` lifecycle hook. -/
inductive PEvent where
  | AddItem (item : Nat)
  | ActivateItem (localFlag : Bool)
  | Remove
  | RemoveItem (itemId : Nat)
  | ZoomOut
  | Deactivated (itemId : Nat)
deriving DecidableEq, Repr

/-- The pane state: ordered item ids, active index, zoom flag
(fields `items`, `active_item_index`, `zoomed` of `struct Pane`). -/
structure Pane where
  items : List Nat
  activeItemIndex : Nat
  zoomed : Bool
deriving DecidableEq, Repr

/-- A fresh pane (`Pane::new`): no items, active index 0, not zoomed. -/
def Pane.init : Pane := ⟨[], 0, false⟩

/-- `Iterator::position`: index of the first element satisfying the predicate. -/
def position (q : α → Bool) : List α → Option Nat
  | [] => none
  | x :: xs => if q x then some 0 else (position q xs).map (· + 1)

/-- `Pane::activate_item`.  Only runs when the index is in bounds; deactivates
the previously active item when the index changes and emits `ActivateItem`.
The `focusItem` flag only affects focus, which is not modelled. -/
def Pane.activate_item (p : Pane) (index : Nat) (activatePane _focusItem : Bool) :
    Pane × List PEvent :=
  if index < p.items.length then
    let prev := p.activeItemIndex
    let hookEvs : List PEvent :=
      if prev ≠ index then
        match p.items[prev]? with
        | some it => [PEvent.Deactivated it]
        | none => []
      else []
    ({ p with activeItemIndex := index }, hookEvs ++ [PEvent.ActivateItem activatePane])
  else (p, [])

/-- The activation phase at the start of `Pane::remove_item`: when the removed
index is the active one, either just focus the pane (one item left and
`should_activate`) or activate the neighbour `item_index.min(len).saturating_sub(1)`. -/
def Pane.remove_item_activation (p : Pane) (itemIndex : Nat) (shouldActivate : Bool) :
    Pane × List PEvent :=
  if itemIndex = p.activeItemIndex then
    let indexToActivate := min itemIndex p.items.length - 1
    if p.items.length = 1 && shouldActivate then (p, [])
    else p.activate_item indexToActivate shouldActivate shouldActivate
  else (p, [])

/-- `Pane::remove_item`.  After the activation phase, `self.items.remove(item_index)`
panics when the index is out of bounds (modelled as `none`); otherwise the item is
removed, `RemoveItem` is emitted, and — when the pane becomes empty — the removed
item's `deactivated` hook runs and `Remove` is emitted, followed by `ZoomOut` when
the pane was zoomed (`close_pane_if_empty` is the constant `true` in the source). -/
def Pane.remove_item (p : Pane) (itemIndex : Nat) (activatePane hasFocus : Bool) :
    Option (Pane × List PEvent) :=
  let shouldActivate := activatePane || hasFocus
  let pr := p.remove_item_activation itemIndex shouldActivate
  let p1 := pr.1
  if h : itemIndex < p1.items.length then
    let item := p1.items[itemIndex]
    let items2 := p1.items.eraseIdx itemIndex
    let evs2 := pr.2 ++ [PEvent.RemoveItem item]
    let evs3 := if items2.isEmpty then evs2 ++ [PEvent.Deactivated item, PEvent.Remove]
      else evs2
    let active2 := if itemIndex < p1.activeItemIndex then p1.activeItemIndex - 1
      else p1.activeItemIndex
    let evs4 := if items2.isEmpty && p1.zoomed then evs3 ++ [PEvent.ZoomOut] else evs3
    some ({ p1 with items := items2, activeItemIndex := active2 }, evs4)
  else none

/-- `Pane::add_item`.  Computes the insertion index (defaulting to just after the
active item, clamped to the length), then either relocates an existing item with
the same id or inserts the new one, activates the item at the insertion index and
finally emits `AddItem`. -/
def Pane.add_item (p : Pane) (item : Nat) (activatePane focusItem : Bool)
    (destinationIndex : Option Nat) : Pane × List PEvent :=
  let insertionIndex :=
    min
      (match destinationIndex with
       | some d => d
       | none => p.activeItemIndex + 1)
      p.items.length
  match position (fun x => x == item) p.items with
  | some existingItemIndex =>
    if existingItemIndex ≠ insertionIndex then
      let existingItemIsActive := existingItemIndex = p.activeItemIndex
      if existingItemIsActive ∧ destinationIndex = none then
        let pr := p.activate_item existingItemIndex activatePane focusItem
        (pr.1, pr.2 ++ [PEvent.AddItem item])
      else
        let items1 := p.items.eraseIdx existingItemIndex
        let active1 := if existingItemIndex < p.activeItemIndex then p.activeItemIndex - 1
          else p.activeItemIndex
        let insertion2 := min insertionIndex items1.length
        let items2 := items1.insertIdx insertion2 item
        let active2 := if existingItemIsActive then insertion2
          else if insertion2 ≤ active1 then active1 + 1 else active1
        let pr := Pane.activate_item ⟨items2, active2, p.zoomed⟩ insertion2 activatePane focusItem
        (pr.1, pr.2 ++ [PEvent.AddItem item])
    else
      let pr := p.activate_item insertionIndex activatePane focusItem
      (pr.1, pr.2 ++ [PEvent.AddItem item])
  | none =>
    let items1 := p.items.insertIdx insertionIndex item
    let active1 := if insertionIndex ≤ p.activeItemIndex then p.activeItemIndex + 1
      else p.activeItemIndex
    let pr := Pane.activate_item ⟨items1, active1, p.zoomed⟩ insertionIndex activatePane focusItem
    (pr.1, pr.2 ++ [PEvent.AddItem item])

/-- One user-level pane operation. -/
inductive PaneOp where
  | add (item : Nat) (activatePane focusItem : Bool) (destinationIndex : Option Nat)
  | remove (itemIndex : Nat) (activatePane hasFocus : Bool)
  | activate (index : Nat) (activatePane focusItem : Bool)
deriving DecidableEq, Repr

/-- Apply one operation; `none` models a Rust panic. -/
def stepOp (p : Pane) : PaneOp → Option (Pane × List PEvent)
  | .add item ap fi dest => some (p.add_item item ap fi dest)
  | .remove ix ap hf => p.remove_item ix ap hf
  | .activate ix ap fi => some (p.activate_item ix ap fi)

/-- Run a sequence of operations, stopping (with `none`) at the first panic. -/
def runOps (p : Pane) : List PaneOp → Option Pane
  | [] => some p
  | op :: rest =>
    match stepOp p op with
    | some (p1, _) => runOps p1 rest
    | none => none

/-- The active-index invariant from the spec: the item list is empty or the
active index is a valid position. -/
def Pane.inv (p : Pane) : Prop :=
  p.items = [] ∨ p.activeItemIndex < p.items.length

/-- The loop body of the task spawned by `Pane::close_items`: for each item
selected for closing, look up its current position and remove it when still
present, otherwise skip the step.  Returns `none` only if a removal panics. -/
def Pane.close_items_run (p : Pane) : List Nat → Option (Pane × List PEvent)
  | [] => some (p, [])
  | id :: rest =>
    match position (fun x => x == id) p.items with
    | some itemIx =>
      match p.remove_item itemIx false false with
      | some (p1, evs) =>
        match p1.close_items_run rest with
        | some (p2, evs2) => some (p2, evs ++ evs2)
        | none => none
      | none => none
    | none => p.close_items_run rest

/-! ## Dock (`src/dock.rs`)

Panels are identified by their entity id; the only panel attribute the modelled
operations touch is the size (`PanelHandle::set_size`).  Pixel lengths are
modelled as rationals; `max` on `f32` is exact and `f32::round` (half away from
zero) agrees with the mathematical `round` on the non-negative values produced
here, since the size is clamped to at least 6 before rounding. -/

/-- `RESIZE_HANDLE_SIZE`: 6 pixels. -/
def RESIZE_HANDLE_SIZE : ℚ := 6

/-- A `PanelEntry`: the panel's entity id and its current size (`None` = auto). -/
structure DockPanel where
  id : Nat
  size : Option ℚ
deriving DecidableEq

/-- Dock state: fields `panel_entries`, `is_open`, `active_panel_index` of
`struct Dock`. -/
structure Dock where
  panels : List DockPanel
  isOpen : Bool
  activePanelIndex : Nat
deriving DecidableEq

/-- `Dock::set_open` — net effect on the dock's own state is setting `is_open`
(the `set_active` call on the panel is a UI effect and is not modelled). -/
def Dock.set_open (d : Dock) (o : Bool) : Dock := { d with isOpen := o }

/-- `Dock::remove_panel`: find the panel's index; if it is the active one,
reset the active index to 0 and close the dock; if it precedes the active one,
shift the active index down; then remove the entry.  A missing panel leaves the
dock unchanged. -/
def Dock.remove_panel (d : Dock) (panelId : Nat) : Dock :=
  match position (fun e => e.id == panelId) d.panels with
  | some panelIx =>
    let d1 :=
      if panelIx = d.activePanelIndex then
        Dock.set_open { d with activePanelIndex := 0 } false
      else if panelIx < d.activePanelIndex then
        { d with activePanelIndex := d.activePanelIndex - 1 }
      else d
    { d1 with panels := d1.panels.eraseIdx panelIx }
  | none => d

/-- `Dock::resize_active_panel`: if an active entry exists, set its size to
`size.map(|s| s.max(RESIZE_HANDLE_SIZE).round())`, else do nothing. -/
def Dock.resize_active_panel (d : Dock) (size : Option ℚ) : Dock :=
  match d.panels[d.activePanelIndex]? with
  | some entry =>
    let size2 := size.map fun s => ((round (max s RESIZE_HANDLE_SIZE) : ℤ) : ℚ)
    { d with panels := d.panels.set d.activePanelIndex { entry with size := size2 } }
  | none => d

/-! ## Tab label disambiguation (`tab_details` in `pane.rs`)

An item is represented by its `tab_description` function, mapping a detail
level to an optional description.  Descriptions (`SharedString` in the source)
are modelled by an arbitrary type `D` with decidable equality.  The `HashMap`
grouping of item indices by description is modelled by the pairwise predicate
`collides`: an item's entry vector has length greater than one exactly when
some other pushed item shares its description. -/

/-- `item.tab_description(d, cx)` for the item at index `ix`. -/
def itemDesc {D : Type} (descs : List (Nat → Option D)) (ix d : Nat) : Option D :=
  match descs[ix]? with
  | some f => f d
  | none => none

/-- Whether item `ix` is entered into the `tab_descriptions` map in the current
iteration: it has a description at its current detail level, and either the
level is 0 or the description differs from the one at the previous level. -/
def isPushed {D : Type} [DecidableEq D] (descs : List (Nat → Option D))
    (details : List Nat) (ix : Nat) : Bool :=
  match itemDesc descs ix (details.getD ix 0) with
  | some s => details.getD ix 0 == 0 || !(itemDesc descs ix (details.getD ix 0 - 1) == some s)
  | none => false

/-- The description an item is grouped under. -/
def pushedKey {D : Type} (descs : List (Nat → Option D)) (details : List Nat)
    (ix : Nat) : Option D :=
  itemDesc descs ix (details.getD ix 0)

/-- Item `ix` collides: its map entry holds more than one index, i.e. another
pushed item shares its description. -/
def collides {D : Type} [DecidableEq D] (descs : List (Nat → Option D))
    (details : List Nat) (ix : Nat) : Bool :=
  isPushed descs details ix &&
    (List.range details.length).any fun jx =>
      jx != ix && isPushed descs details jx &&
        pushedKey descs details jx == pushedKey descs details ix

/-- One iteration of the `while !done` loop: every colliding item's detail
level is incremented. -/
def bumpDetails {D : Type} [DecidableEq D] (descs : List (Nat → Option D))
    (details : List Nat) : List Nat :=
  (List.range details.length).map fun ix =>
    if collides descs details ix then details.getD ix 0 + 1 else details.getD ix 0

/-- `done` stays `false` in an iteration iff some item collides. -/
def anyCollision {D : Type} [DecidableEq D] (descs : List (Nat → Option D))
    (details : List Nat) : Bool :=
  (List.range details.length).any (collides descs details)

/-- The `while !done` loop of `tab_details`, with explicit fuel
(`none` = fuel exhausted before the fixed point). -/
def tabDetailsAux {D : Type} [DecidableEq D] (descs : List (Nat → Option D)) :
    Nat → List Nat → Option (List Nat)
  | 0, _ => none
  | fuel + 1, details =>
    if anyCollision descs details then tabDetailsAux descs fuel (bumpDetails descs details)
    else some details

/-- `tab_details`: all detail levels start at 0 and are raised until no two
pushed items share a description. -/
def tab_details {D : Type} [DecidableEq D] (descs : List (Nat → Option D))
    (fuel : Nat) : Option (List Nat) :=
  tabDetailsAux descs fuel (descs.map fun _ => 0)

/-- Termination measure for the `tab_details` loop, given a uniform
stabilisation bound `N` for the description functions. -/
def detailsMeasure (N : Nat) (details : List Nat) : Nat :=
  ∑ ix ∈ Finset.range details.length, (N + 1 - details.getD ix 0)

/-- Two items whose (constant) descriptions always coincide. -/
def descsAA : List (Nat → Option Nat) := [fun _ => some 0, fun _ => some 0]

/-- Two items with distinct constant descriptions. -/
def descsAB : List (Nat → Option Nat) := [fun _ => some 0, fun _ => some 1]

/-! ## Helper lemmas -/

theorem position_lt_length {α : Type u} (q : α → Bool) :
    ∀ (l : List α) (ix : Nat), position q l = some ix → ix < l.length := by
  intro l
  induction l with
  | nil => intro ix h; simp [position] at h
  | cons x xs ih =>
    intro ix h
    simp only [position] at h
    split at h
    · cases h; simp
    · rcases Option.map_eq_some'.mp h with ⟨j, hj, rfl⟩
      have := ih j hj
      simp only [List.length_cons]
      omega

theorem Pane.activate_item_of_lt {p : Pane} {index : Nat} (h : index < p.items.length)
    (ap fi : Bool) :
    (p.activate_item index ap fi).1 = { p with activeItemIndex := index } := by
  simp [Pane.activate_item, h]

theorem Pane.activate_item_of_ge {p : Pane} {index : Nat} (h : p.items.length ≤ index)
    (ap fi : Bool) : p.activate_item index ap fi = (p, []) := by
  simp [Pane.activate_item, Nat.not_lt.mpr h]

theorem Pane.activate_item_items (p : Pane) (index : Nat) (ap fi : Bool) :
    (p.activate_item index ap fi).1.items = p.items ∧
    (p.activate_item index ap fi).1.zoomed = p.zoomed := by
  by_cases h : index < p.items.length
  · rw [Pane.activate_item_of_lt h]; exact ⟨rfl, rfl⟩
  · rw [Pane.activate_item_of_ge (Nat.le_of_not_lt h)]; exact ⟨rfl, rfl⟩

theorem Pane.remove_item_activation_items (p : Pane) (itemIndex : Nat) (sa : Bool) :
    (p.remove_item_activation itemIndex sa).1.items = p.items ∧
    (p.remove_item_activation itemIndex sa).1.zoomed = p.zoomed := by
  unfold Pane.remove_item_activation
  split
  · split
    · exact ⟨rfl, rfl⟩
    · exact Pane.activate_item_items ..
  · exact ⟨rfl, rfl⟩

theorem Pane.remove_item_activation_active (p : Pane) (itemIndex : Nat) (sa : Bool)
    (hi : itemIndex < p.items.length) :
    (p.remove_item_activation itemIndex sa).1.activeItemIndex =
      if itemIndex = p.activeItemIndex then
        (if p.items.length = 1 ∧ sa = true then p.activeItemIndex else itemIndex - 1)
      else p.activeItemIndex := by
  unfold Pane.remove_item_activation
  by_cases hix : itemIndex = p.activeItemIndex
  · rw [if_pos hix, if_pos hix]
    by_cases h1 : p.items.length = 1 ∧ sa = true
    · rw [if_pos h1]
      have : (decide (p.items.length = 1) && sa) = true := by
        rw [h1.2, decide_eq_true h1.1]; rfl
      rw [if_pos this]
    · rw [if_neg h1]
      have hb : ¬((decide (p.items.length = 1) && sa) = true) := by
        intro hc
        rcases Bool.and_eq_true_iff.mp hc with ⟨h1', h2'⟩
        exact h1 ⟨of_decide_eq_true h1', h2'⟩
      rw [if_neg hb]
      have hmin : min itemIndex p.items.length = itemIndex := Nat.min_eq_left (Nat.le_of_lt hi)
      have hlt : min itemIndex p.items.length - 1 < p.items.length := by omega
      rw [Pane.activate_item_of_lt hlt]
      simp [hmin]
  · rw [if_neg hix, if_neg hix]

theorem Pane.remove_item_isSome {p : Pane} {i : Nat} (h : i < p.items.length)
    (ap hf : Bool) : ∃ q, p.remove_item i ap hf = some q := by
  have hx : i < (p.remove_item_activation i (ap || hf)).1.items.length := by
    rw [(Pane.remove_item_activation_items p i (ap || hf)).1]; exact h
  unfold Pane.remove_item
  exact ⟨_, dif_pos hx⟩

/-! ## Claim theorems -/

/-- C8: on a pane holding items `[A, B, C] = [1, 2, 3]` with active index 1,
`remove_item(1)` yields items `[1, 3]` with active index 0 and emits
`RemoveItem` with B's id (2); on an empty pane, `add_item(X) = add_item(7)` with
no destination index yields items `[7]` with active index 0 and emits
`AddItem`. -/
theorem pane_scenarios :
    (Pane.remove_item ⟨[1, 2, 3], 1, false⟩ 1 false false =
      some (⟨[1, 3], 0, false⟩,
        [PEvent.Deactivated 2, PEvent.ActivateItem false, PEvent.RemoveItem 2])) ∧
    (Pane.add_item ⟨[], 0, false⟩ 7 false false none =
      (⟨[7], 0, false⟩, [PEvent.ActivateItem false, PEvent.AddItem 7])) := by
  decide

/-- C2 counterexample: `remove_item` on a missing index is not a guarded no-op:
on a pane with one item, `remove_item(1)` hits the unguarded
`self.items.remove(item_index)` and panics (modelled as `none`). -/
theorem pane_remove_oob_counterexample :
    Pane.remove_item ⟨[4], 0, false⟩ 1 false false = none := by
  decide

/-- C2 (amended): `activate_item` with an out-of-bounds index is a guarded
silent no-op (state unchanged, no events, no failure), but `remove_item` with an
out-of-bounds index panics (`Vec::remove` is not bounds-guarded). -/
theorem pane_out_of_bounds_ops :
    (∀ (p : Pane) (i : Nat) (ap fi : Bool), p.items.length ≤ i →
      p.activate_item i ap fi = (p, [])) ∧
    (∀ (p : Pane) (i : Nat) (ap hf : Bool), p.items.length ≤ i →
      p.remove_item i ap hf = none) := by
  constructor
  · intro p i ap fi h
    exact Pane.activate_item_of_ge h ap fi
  · intro p i ap hf h
    have hx : ¬ i < (p.remove_item_activation i (ap || hf)).1.items.length := by
      rw [(Pane.remove_item_activation_items p i (ap || hf)).1]; omega
    unfold Pane.remove_item
    exact dif_neg hx

/-- Witness for C2's amended theorem at a concrete pane and index. -/
theorem pane_out_of_bounds_ops_witness :
    Pane.activate_item ⟨[9], 0, false⟩ 5 true true = (⟨[9], 0, false⟩, []) ∧
    Pane.remove_item ⟨[9], 0, false⟩ 5 false false = none :=
  ⟨pane_out_of_bounds_ops.1 ⟨[9], 0, false⟩ 5 true true (by decide),
   pane_out_of_bounds_ops.2 ⟨[9], 0, false⟩ 5 false false (by decide)⟩

theorem Pane.activate_item_inv_of_lt {q : Pane} {j : Nat} (h : j < q.items.length)
    (ap fi : Bool) : ((q.activate_item j ap fi).1).inv := by
  rw [Pane.activate_item_of_lt h]
  exact Or.inr h

theorem Pane.activate_item_inv {p : Pane} (hp : p.inv) (j : Nat) (ap fi : Bool) :
    ((p.activate_item j ap fi).1).inv := by
  by_cases h : j < p.items.length
  · exact Pane.activate_item_inv_of_lt h ap fi
  · rw [Pane.activate_item_of_ge (Nat.le_of_not_lt h)]; exact hp

theorem Pane.add_item_inv (p : Pane) (item : Nat) (ap fi : Bool)
    (dest : Option Nat) : (p.add_item item ap fi dest).1.inv := by
  unfold Pane.add_item
  cases dest
  all_goals
    dsimp only
    split
    next e heq =>
      have he : e < p.items.length := position_lt_length _ _ _ heq
      split
      next hne =>
        split
        · exact Pane.activate_item_inv_of_lt he ap fi
        · refine Pane.activate_item_inv_of_lt ?_ ap fi
          dsimp only
          rw [List.length_insertIdx _ _ (Nat.min_le_right _ _)]
          omega
      next hne =>
        have hee := not_ne_iff.mp hne
        rw [← hee]
        exact Pane.activate_item_inv_of_lt he ap fi
    next heq =>
      refine Pane.activate_item_inv_of_lt ?_ ap fi
      dsimp only
      rw [List.length_insertIdx _ _ (Nat.min_le_right _ _)]
      omega

theorem Pane.remove_item_inv {p : Pane} (hp : p.inv) {i : Nat} {ap hf : Bool}
    {p2 : Pane} {evs : List PEvent} (h : p.remove_item i ap hf = some (p2, evs)) :
    p2.inv := by
  unfold Pane.remove_item at h
  by_cases hlt : i < (p.remove_item_activation i (ap || hf)).1.items.length
  case neg => rw [dif_neg hlt] at h; cases h
  rw [dif_pos hlt] at h
  have hitems := (Pane.remove_item_activation_items p i (ap || hf)).1
  have hi : i < p.items.length := by rw [hitems] at hlt; exact hlt
  have hpa : p.activeItemIndex < p.items.length := by
    rcases hp with hnil | hlt2
    · rw [hnil] at hi; simp at hi
    · exact hlt2
  have hact := Pane.remove_item_activation_active p i (ap || hf) hi
  injection h with h
  injection h with h1 h2
  subst h1
  unfold Pane.inv
  dsimp only
  rw [hitems]
  have hlen : (p.items.eraseIdx i).length = p.items.length - 1 := by
    rw [List.length_eraseIdx, if_pos hi]
  by_cases hone : p.items.length = 1
  · left
    apply List.eq_nil_of_length_eq_zero
    omega
  · right
    rw [hlen]
    by_cases hie : i = p.activeItemIndex
    · rw [if_pos hie] at hact
      by_cases hsa : p.items.length = 1 ∧ (ap || hf) = true
      · exact absurd hsa.1 hone
      · rw [if_neg hsa] at hact
        rw [hact]
        have hni : ¬ i < i - 1 := by omega
        rw [if_neg hni]
        omega
    · rw [if_neg hie] at hact
      rw [hact]
      by_cases hlt3 : i < p.activeItemIndex
      · rw [if_pos hlt3]; omega
      · rw [if_neg hlt3]; omega

theorem stepOp_inv {p : Pane} (hp : p.inv) {op : PaneOp} {p2 : Pane}
    {evs : List PEvent} (h : stepOp p op = some (p2, evs)) : p2.inv := by
  cases op with
  | add item ap fi dest =>
    simp only [stepOp] at h
    injection h with h
    rw [show p2 = (p.add_item item ap fi dest).1 by rw [h]]
    exact Pane.add_item_inv p item ap fi dest
  | remove ix ap hf =>
    exact Pane.remove_item_inv hp h
  | activate ix ap fi =>
    simp only [stepOp] at h
    injection h with h
    rw [show p2 = (p.activate_item ix ap fi).1 by rw [h]]
    exact Pane.activate_item_inv hp ix ap fi

theorem runOps_inv : ∀ (ops : List PaneOp) {p : Pane}, p.inv →
    ∀ {p2 : Pane}, runOps p ops = some p2 → p2.inv := by
  intro ops
  induction ops with
  | nil =>
    intro p hp p2 h
    simp only [runOps] at h
    injection h with h
    exact h ▸ hp
  | cons op rest ih =>
    intro p hp p2 h
    simp only [runOps] at h
    split at h
    case h_1 q hq => exact ih (stepOp_inv hp hq) h
    case h_2 => cases h

/-- C1: starting from a fresh pane, any successfully executed sequence of
`add_item` / `remove_item` / `activate_item` operations preserves the active
index invariant: after every operation the item list is empty or
`active_item_index < items.len()` (every prefix of a successful run is itself a
successful run, so the invariant holds after each step). -/
theorem pane_runOps_inv (ops : List PaneOp) (p2 : Pane)
    (h : runOps Pane.init ops = some p2) : p2.inv :=
  runOps_inv ops (Or.inl rfl) h

/-- Witness for C1 at a concrete operation sequence. -/
theorem pane_runOps_inv_witness : Pane.inv ⟨[1, 2], 1, false⟩ :=
  pane_runOps_inv [PaneOp.add 1 false false none, PaneOp.add 2 false false none]
    ⟨[1, 2], 1, false⟩ (by decide)

theorem Pane.activate_item_self {p : Pane} (h : p.activeItemIndex < p.items.length)
    (ap fi : Bool) :
    p.activate_item p.activeItemIndex ap fi = (p, [PEvent.ActivateItem ap]) := by
  unfold Pane.activate_item
  rw [if_pos h]
  dsimp only
  rw [if_neg (fun hc => hc rfl)]
  rfl

/-- C3 counterexample: adding the currently active item with no destination index
is not event-free — the pane still emits events (`ActivateItem` then `AddItem`). -/
theorem pane_add_noop_counterexample :
    (Pane.add_item ⟨[5], 0, false⟩ 5 false false none).2 ≠ [] := by
  decide

/-- C3 (amended): calling `add_item` with the currently active item and no
destination index leaves the item order and the active index unchanged (the
item is relocated onto itself, not duplicated), but an `ActivateItem` event and
an `AddItem` event are still emitted. -/
theorem pane_add_active_item (p : Pane) (a : Nat) (ap fi : Bool)
    (h : position (fun x => x == a) p.items = some p.activeItemIndex) :
    (p.add_item a ap fi none).1.items = p.items ∧
    (p.add_item a ap fi none).1.activeItemIndex = p.activeItemIndex ∧
    (p.add_item a ap fi none).1.zoomed = p.zoomed ∧
    (p.add_item a ap fi none).2 = [PEvent.ActivateItem ap, PEvent.AddItem a] := by
  have he : p.activeItemIndex < p.items.length := position_lt_length _ _ _ h
  unfold Pane.add_item
  rw [h]
  dsimp only
  rw [Nat.min_eq_left (by omega : p.activeItemIndex + 1 ≤ p.items.length)]
  rw [if_pos (by omega : p.activeItemIndex ≠ p.activeItemIndex + 1)]
  rw [if_pos ⟨rfl, rfl⟩]
  rw [Pane.activate_item_self he]
  exact ⟨rfl, rfl, rfl, rfl⟩

/-- Witness for C3's amended theorem at a concrete pane. -/
theorem pane_add_active_item_witness :
    (Pane.add_item ⟨[5], 0, false⟩ 5 true false none).1.items = [5] ∧
    (Pane.add_item ⟨[5], 0, false⟩ 5 true false none).2 =
      [PEvent.ActivateItem true, PEvent.AddItem 5] :=
  ⟨(pane_add_active_item ⟨[5], 0, false⟩ 5 true false (by decide)).1,
   (pane_add_active_item ⟨[5], 0, false⟩ 5 true false (by decide)).2.2.2⟩

/-- C6: removing the only item of a zoomed pane emits exactly one `ZoomOut`
event, together with a `RemoveItem` event for the removed item, the removed
item's `deactivated` hook, and the pane-removal event `Remove`. -/
theorem pane_remove_last_zoomed (a : Nat) (ap hf : Bool) (p : Pane)
    (hitems : p.items = [a]) (hz : p.zoomed = true) :
    ∃ p2 evs, p.remove_item 0 ap hf = some (p2, evs) ∧
      evs.count PEvent.ZoomOut = 1 ∧
      PEvent.RemoveItem a ∈ evs ∧ PEvent.Deactivated a ∈ evs ∧ PEvent.Remove ∈ evs := by
  obtain ⟨items, act, zm⟩ := p
  dsimp only at hitems hz
  subst hitems hz
  by_cases hact : (0 : Nat) = act
  · subst hact
    cases hsa : (ap || hf) with
    | true =>
      exact ⟨⟨[], 0, true⟩,
        [PEvent.RemoveItem a, PEvent.Deactivated a, PEvent.Remove, PEvent.ZoomOut],
        by simp [Pane.remove_item, Pane.remove_item_activation, hsa],
        by simp [List.count_cons], by simp, by simp, by simp⟩
    | false =>
      exact ⟨⟨[], 0, true⟩,
        [PEvent.ActivateItem false, PEvent.RemoveItem a, PEvent.Deactivated a,
          PEvent.Remove, PEvent.ZoomOut],
        by simp [Pane.remove_item, Pane.remove_item_activation, Pane.activate_item, hsa],
        by simp [List.count_cons], by simp, by simp, by simp⟩
  · have h0 : 0 < act := Nat.pos_of_ne_zero fun hh => hact hh.symm
    exact ⟨⟨[], act - 1, true⟩,
      [PEvent.RemoveItem a, PEvent.Deactivated a, PEvent.Remove, PEvent.ZoomOut],
      by simp [Pane.remove_item, Pane.remove_item_activation, hact, h0],
      by simp [List.count_cons], by simp, by simp, by simp⟩

/-- Witness for C6 at a concrete zoomed single-item pane. -/
theorem pane_remove_last_zoomed_witness :
    ∃ p2 evs, Pane.remove_item ⟨[1], 0, true⟩ 0 false false = some (p2, evs) ∧
      evs.count PEvent.ZoomOut = 1 ∧
      PEvent.RemoveItem 1 ∈ evs ∧ PEvent.Deactivated 1 ∈ evs ∧ PEvent.Remove ∈ evs :=
  pane_remove_last_zoomed 1 false false ⟨[1], 0, true⟩ rfl rfl

/-- C9: the multi-item close loop tolerates items that have disappeared before
their removal step runs — such a step is skipped with no state change — and the
whole batch always completes successfully (never panics), since each removal is
guarded by a fresh position lookup. -/
theorem close_items_run_tolerant :
    (∀ (p : Pane) (i : Nat) (rest : List Nat),
      position (fun x => x == i) p.items = none →
      p.close_items_run (i :: rest) = p.close_items_run rest) ∧
    (∀ (p : Pane) (ids : List Nat), (p.close_items_run ids).isSome = true) := by
  constructor
  · intro p i rest h
    simp only [Pane.close_items_run, h]
  · intro p ids
    induction ids generalizing p with
    | nil => simp [Pane.close_items_run]
    | cons i rest ih =>
      cases hpos : position (fun x => x == i) p.items with
      | none =>
        simp only [Pane.close_items_run, hpos]
        exact ih p
      | some ix =>
        have hix : ix < p.items.length := position_lt_length _ _ _ hpos
        obtain ⟨⟨p1, evs⟩, hrm⟩ := Pane.remove_item_isSome hix false false
        obtain ⟨⟨p2, evs2⟩, hrun⟩ := Option.isSome_iff_exists.mp (ih p1)
        simp only [Pane.close_items_run, hpos, hrm, hrun]
        rfl

/-- Witness for C9 at a concrete pane and id list. -/
theorem close_items_run_tolerant_witness :
    Pane.close_items_run ⟨[3], 0, false⟩ [7] = Pane.close_items_run ⟨[3], 0, false⟩ [] ∧
    (Pane.close_items_run ⟨[3], 0, false⟩ [7, 3]).isSome = true :=
  ⟨close_items_run_tolerant.1 ⟨[3], 0, false⟩ 7 [] (by decide),
   close_items_run_tolerant.2 ⟨[3], 0, false⟩ [7, 3]⟩

/-- C7: `Dock::remove_panel` of the active panel resets the active index to 0
and closes the dock; removing a panel whose index precedes the active one
decrements the active index by exactly one and leaves the open state unchanged;
removing a panel that is not present leaves the dock unchanged. -/
theorem dock_remove_panel_spec (d : Dock) (panelId : Nat) :
    (position (fun e => e.id == panelId) d.panels = none →
      d.remove_panel panelId = d) ∧
    (∀ panelIx, position (fun e => e.id == panelId) d.panels = some panelIx →
      (d.remove_panel panelId).panels = d.panels.eraseIdx panelIx ∧
      (panelIx = d.activePanelIndex →
        (d.remove_panel panelId).activePanelIndex = 0 ∧
        (d.remove_panel panelId).isOpen = false) ∧
      (panelIx < d.activePanelIndex →
        (d.remove_panel panelId).activePanelIndex = d.activePanelIndex - 1 ∧
        (d.remove_panel panelId).isOpen = d.isOpen)) := by
  constructor
  · intro h
    simp only [Dock.remove_panel, h]
  · intro ix h
    simp only [Dock.remove_panel, h]
    by_cases hia : ix = d.activePanelIndex
    · rw [if_pos hia]
      refine ⟨rfl, fun _ => ⟨rfl, rfl⟩, fun hlt => absurd hia (by omega)⟩
    · rw [if_neg hia]
      by_cases hlt : ix < d.activePanelIndex
      · rw [if_pos hlt]
        exact ⟨rfl, fun hh => absurd hh hia, fun _ => ⟨rfl, rfl⟩⟩
      · rw [if_neg hlt]
        exact ⟨rfl, fun hh => absurd hh hia, fun hh => absurd hh hlt⟩

/-- Witness for C7 at a concrete dock, removing the active panel. -/
theorem dock_remove_panel_spec_witness :
    (Dock.remove_panel ⟨[⟨10, none⟩, ⟨20, none⟩, ⟨30, none⟩], true, 1⟩ 20).panels =
      [⟨10, none⟩, ⟨30, none⟩] ∧
    (Dock.remove_panel ⟨[⟨10, none⟩, ⟨20, none⟩, ⟨30, none⟩], true, 1⟩ 20).activePanelIndex = 0 ∧
    (Dock.remove_panel ⟨[⟨10, none⟩, ⟨20, none⟩, ⟨30, none⟩], true, 1⟩ 20).isOpen = false := by
  have h := (dock_remove_panel_spec ⟨[⟨10, none⟩, ⟨20, none⟩, ⟨30, none⟩], true, 1⟩ 20).2 1 rfl
  exact ⟨h.1, (h.2.1 rfl).1, (h.2.1 rfl).2⟩

/-- C10: on a dock whose active index holds a panel (any dock with at least one
panel that satisfies the active-index invariant), `resize_active_panel(Some(s))`
sets the active panel's size to `round(max(s, RESIZE_HANDLE_SIZE))` — the
requested size clamped to the 6-pixel handle minimum and rounded to the nearest
pixel — and `resize_active_panel(None)` resets the size to `None` (auto). -/
theorem dock_resize_active_panel_spec (d : Dock) (entry : DockPanel) (s : ℚ)
    (hentry : d.panels[d.activePanelIndex]? = some entry) :
    (d.resize_active_panel (some s)).panels[d.activePanelIndex]? =
      some { entry with size := some ((round (max s RESIZE_HANDLE_SIZE) : ℤ) : ℚ) } ∧
    (d.resize_active_panel none).panels[d.activePanelIndex]? =
      some { entry with size := none } := by
  have hlt : d.activePanelIndex < d.panels.length := by
    rcases List.getElem?_eq_some.mp hentry with ⟨hl, _⟩
    exact hl
  constructor
  · simp only [Dock.resize_active_panel, hentry, Option.map_some']
    exact List.getElem?_set_self hlt
  · simp only [Dock.resize_active_panel, hentry, Option.map_none']
    exact List.getElem?_set_self hlt

/-- Witness for C10 at a concrete dock: requesting 3/2 pixels clamps to the
6-pixel minimum; `None` resets to auto. -/
theorem dock_resize_active_panel_spec_witness :
    (Dock.resize_active_panel ⟨[⟨1, none⟩], true, 0⟩ (some (3 / 2))).panels[0]? =
      some ⟨1, some 6⟩ ∧
    (Dock.resize_active_panel ⟨[⟨1, none⟩], true, 0⟩ none).panels[0]? =
      some ⟨1, none⟩ := by
  have h := dock_resize_active_panel_spec ⟨[⟨1, none⟩], true, 0⟩ ⟨1, none⟩ (3 / 2) rfl
  refine ⟨?_, h.2⟩
  rw [h.1]
  norm_num [RESIZE_HANDLE_SIZE]

theorem isPushed_lt_length {D : Type} [DecidableEq D] {descs : List (Nat → Option D)}
    {details : List Nat} {ix : Nat} (h : isPushed descs details ix = true) :
    ix < descs.length := by
  by_contra hge
  rw [isPushed, itemDesc, List.getElem?_eq_none (by omega)] at h
  simp at h

theorem bumpDetails_length {D : Type} [DecidableEq D] (descs : List (Nat → Option D))
    (details : List Nat) : (bumpDetails descs details).length = details.length := by
  simp [bumpDetails]

theorem bumpDetails_getD {D : Type} [DecidableEq D] (descs : List (Nat → Option D))
    (details : List Nat) {ix : Nat} (h : ix < details.length) :
    (bumpDetails descs details).getD ix 0 =
      if collides descs details ix then details.getD ix 0 + 1 else details.getD ix 0 := by
  rw [bumpDetails, List.getD_eq_getElem?_getD, List.getElem?_map, List.getElem?_range h]
  rfl

theorem tabDetailsAux_length {D : Type} [DecidableEq D] {descs : List (Nat → Option D)} :
    ∀ {fuel : Nat} {details res : List Nat},
      tabDetailsAux descs fuel details = some res → res.length = details.length := by
  intro fuel
  induction fuel with
  | zero => intro details res h; simp [tabDetailsAux] at h
  | succ fuel ih =>
    intro details res h
    rw [tabDetailsAux] at h
    by_cases hc : anyCollision descs details = true
    · rw [if_pos hc] at h
      rw [ih h, bumpDetails_length]
    · rw [if_neg hc] at h
      injection h with h
      rw [← h]

theorem tabDetailsAux_noCollision {D : Type} [DecidableEq D]
    {descs : List (Nat → Option D)} :
    ∀ {fuel : Nat} {details res : List Nat},
      tabDetailsAux descs fuel details = some res → anyCollision descs res = false := by
  intro fuel
  induction fuel with
  | zero => intro details res h; simp [tabDetailsAux] at h
  | succ fuel ih =>
    intro details res h
    rw [tabDetailsAux] at h
    cases hb : anyCollision descs details with
    | true =>
      rw [if_pos hb] at h
      exact ih h
    | false =>
      rw [if_neg (by simp [hb])] at h
      injection h with h
      rw [← h]
      exact hb

/-- C4 counterexample: for two items whose descriptions agree at every detail
level, `tab_details` terminates with detail levels `[1, 1]`, yet both items
still render the same description at their assigned levels — the resulting
descriptions are not pairwise distinct. -/
theorem tab_details_counterexample :
    tab_details descsAA 3 = some [1, 1] ∧
    itemDesc descsAA 0 1 = some 0 ∧ itemDesc descsAA 1 1 = some 0 :=
  ⟨by decide, rfl, rfl⟩

/-- C4 (amended): when `tab_details` terminates, the per-item descriptions are
pairwise distinct among the items that are still entered into the
disambiguation map at their final detail level (those whose description exists
and either is at level 0 or differs from the previous level); items whose
description has stabilised are skipped and may share identical descriptions. -/
theorem tab_details_distinct {D : Type} [DecidableEq D] (descs : List (Nat → Option D))
    (fuel : Nat) (res : List Nat) (h : tab_details descs fuel = some res) :
    ∀ ix jx, ix ≠ jx → isPushed descs res ix = true → isPushed descs res jx = true →
      pushedKey descs res ix ≠ pushedKey descs res jx := by
  intro ix jx hne hpi hpj hkey
  have hnc : anyCollision descs res = false := tabDetailsAux_noCollision h
  have hlen : res.length = descs.length := by
    have h2 := tabDetailsAux_length h
    rw [h2, List.length_map]
  have hix : ix < res.length := by rw [hlen]; exact isPushed_lt_length hpi
  have hjx : jx < res.length := by rw [hlen]; exact isPushed_lt_length hpj
  have hcol : collides descs res ix = true := by
    rw [collides, hpi, Bool.true_and, List.any_eq_true]
    refine ⟨jx, List.mem_range.mpr hjx, ?_⟩
    have hb1 : (jx != ix) = true := bne_iff_ne.mpr (Ne.symm hne)
    have hb3 : (pushedKey descs res jx == pushedKey descs res ix) = true :=
      beq_iff_eq.mpr hkey.symm
    rw [hb1, hpj, hb3]
    rfl
  rw [anyCollision, List.any_eq_false] at hnc
  exact hnc ix (List.mem_range.mpr hix) hcol

/-- Witness for C4's amended theorem: two distinct constant descriptions are
pushed at the fixed point and come out distinct. -/
theorem tab_details_distinct_witness :
    pushedKey descsAB [0, 0] 0 ≠ pushedKey descsAB [0, 0] 1 :=
  tab_details_distinct descsAB 1 [0, 0] (by decide) 0 1 (by decide) (by decide) (by decide)

theorem eventually_const_uniform {D : Type} (descs : List (Nat → Option D))
    (h : ∀ f ∈ descs, ∃ N, ∀ d, N ≤ d → f d = f N) :
    ∃ N, ∀ f ∈ descs, ∀ d, N ≤ d → f d = f N := by
  induction descs with
  | nil => exact ⟨0, by simp⟩
  | cons g gs ih =>
    obtain ⟨Ng, hg⟩ := h g (List.mem_cons_self g gs)
    obtain ⟨N, hN⟩ := ih fun f hf => h f (List.mem_cons_of_mem g hf)
    refine ⟨max Ng N, ?_⟩
    intro f hf d hd
    rcases List.mem_cons.mp hf with rfl | hf
    · rw [hg d (le_trans (le_max_left Ng N) hd), hg (max Ng N) (le_max_left Ng N)]
    · rw [hN f hf d (le_trans (le_max_right Ng N) hd), hN f hf (max Ng N) (le_max_right Ng N)]

theorem isPushed_detail_le {D : Type} [DecidableEq D] {descs : List (Nat → Option D)}
    {N : Nat} (hconst : ∀ f ∈ descs, ∀ d, N ≤ d → f d = f N)
    {details : List Nat} {ix : Nat} (h : isPushed descs details ix = true) :
    details.getD ix 0 ≤ N := by
  by_contra hgt
  push_neg at hgt
  rw [isPushed] at h
  cases hdesc : itemDesc descs ix (details.getD ix 0) with
  | none => rw [hdesc] at h; simp at h
  | some s =>
    rw [hdesc] at h
    dsimp only at h
    have h0 : (details.getD ix 0 == 0) = false := beq_eq_false_iff_ne.mpr (by omega)
    rw [h0, Bool.false_or] at h
    obtain ⟨f, hf⟩ : ∃ f, descs[ix]? = some f := by
      rw [itemDesc] at hdesc
      cases hg : descs[ix]? with
      | none => rw [hg] at hdesc; cases hdesc
      | some f => exact ⟨f, rfl⟩
    have hmem : f ∈ descs := List.getElem?_mem hf
    have hfd : f (details.getD ix 0) = some s := by rw [itemDesc, hf] at hdesc; exact hdesc
    have e1 : f (details.getD ix 0) = f N := hconst f hmem _ (by omega)
    have e2 : f (details.getD ix 0 - 1) = f N := hconst f hmem _ (by omega)
    have hprev : itemDesc descs ix (details.getD ix 0 - 1) = some s := by
      rw [itemDesc, hf]
      dsimp only
      rw [e2, ← e1, hfd]
    rw [hprev] at h
    simp at h

theorem bumpDetails_le {D : Type} [DecidableEq D] {descs : List (Nat → Option D)}
    {N : Nat} (hconst : ∀ f ∈ descs, ∀ d, N ≤ d → f d = f N) {details : List Nat}
    (hinv : ∀ ix, details.getD ix 0 ≤ N + 1) :
    ∀ ix, (bumpDetails descs details).getD ix 0 ≤ N + 1 := by
  intro ix
  by_cases hix : ix < details.length
  · rw [bumpDetails_getD descs details hix]
    by_cases hc : collides descs details ix = true
    · rw [if_pos hc]
      have hpush : isPushed descs details ix = true := by
        rw [collides] at hc
        exact (Bool.and_eq_true_iff.mp hc).1
      have := isPushed_detail_le hconst hpush
      omega
    · rw [if_neg hc]
      exact hinv ix
  · rw [List.getD_eq_default _ _ (by rw [bumpDetails_length]; omega)]
    omega

theorem bump_measure_lt {D : Type} [DecidableEq D] {descs : List (Nat → Option D)}
    {N : Nat} (hconst : ∀ f ∈ descs, ∀ d, N ≤ d → f d = f N) {details : List Nat}
    (hcol : anyCollision descs details = true) :
    detailsMeasure N (bumpDetails descs details) < detailsMeasure N details := by
  rw [detailsMeasure, detailsMeasure, bumpDetails_length]
  apply Finset.sum_lt_sum
  · intro i hi
    rw [bumpDetails_getD descs details (Finset.mem_range.mp hi)]
    by_cases hc : collides descs details i = true
    · rw [if_pos hc]; omega
    · rw [if_neg hc]
  · rw [anyCollision, List.any_eq_true] at hcol
    obtain ⟨i, hi, hci⟩ := hcol
    have hir := List.mem_range.mp hi
    refine ⟨i, Finset.mem_range.mpr hir, ?_⟩
    rw [bumpDetails_getD descs details hir, if_pos hci]
    rw [collides] at hci
    have := isPushed_detail_le hconst (Bool.and_eq_true_iff.mp hci).1
    omega

theorem tabDetailsAux_terminates {D : Type} [DecidableEq D]
    {descs : List (Nat → Option D)} {N : Nat}
    (hconst : ∀ f ∈ descs, ∀ d, N ≤ d → f d = f N) :
    ∀ (fuel : Nat) (details : List Nat), detailsMeasure N details < fuel →
      (∀ ix, details.getD ix 0 ≤ N + 1) →
      ∃ res, tabDetailsAux descs fuel details = some res := by
  intro fuel
  induction fuel with
  | zero => intro details hm _; exact absurd hm (Nat.not_lt_zero _)
  | succ fuel ih =>
    intro details hm hinv
    cases hc : anyCollision descs details with
    | false => exact ⟨details, by rw [tabDetailsAux, if_neg (by simp [hc])]⟩
    | true =>
      have hlt := bump_measure_lt hconst hc
      obtain ⟨res, hres⟩ := ih (bumpDetails descs details) (by omega)
        (bumpDetails_le hconst hinv)
      exact ⟨res, by rw [tabDetailsAux, if_pos hc, hres]⟩

theorem initDetails_getD {D : Type} (descs : List (Nat → Option D)) (ix : Nat) :
    (descs.map fun _ => 0).getD ix 0 = 0 := by
  rw [List.getD_eq_getElem?_getD, List.getElem?_map]
  cases descs[ix]? <;> rfl

theorem initDetails_measure {D : Type} (descs : List (Nat → Option D)) (N : Nat) :
    detailsMeasure N (descs.map fun _ => 0) = descs.length * (N + 1) := by
  rw [detailsMeasure, List.length_map]
  have hterm : ∀ ix ∈ Finset.range descs.length,
      N + 1 - (descs.map fun _ => 0).getD ix 0 = N + 1 := by
    intro ix _
    rw [initDetails_getD]
    omega
  rw [Finset.sum_congr rfl hterm, Finset.sum_const, Finset.card_range, smul_eq_mul]

/-- C5: for a finite item list whose description functions are each finite
(eventually constant in the detail level — increasing detail eventually stops
changing the description), the `tab_details` fixed-point iteration terminates:
some finite fuel reaches the fixed point. -/
theorem tab_details_terminates {D : Type} [DecidableEq D] (descs : List (Nat → Option D))
    (hfin : ∀ f ∈ descs, ∃ N, ∀ d, N ≤ d → f d = f N) :
    ∃ fuel res, tab_details descs fuel = some res := by
  obtain ⟨N, hN⟩ := eventually_const_uniform descs hfin
  obtain ⟨res, hres⟩ := tabDetailsAux_terminates hN (descs.length * (N + 1) + 1)
    (descs.map fun _ => 0)
    (by rw [initDetails_measure]; omega)
    (fun ix => by rw [initDetails_getD]; omega)
  exact ⟨descs.length * (N + 1) + 1, res, hres⟩

/-- Witness for C5 at a concrete finite description list. -/
theorem tab_details_terminates_witness :
    ∃ fuel res, tab_details descsAA fuel = some res :=
  tab_details_terminates descsAA (by
    intro f hf
    refine ⟨0, fun d _ => ?_⟩
    rcases List.mem_cons.mp hf with rfl | hf2
    · rfl
    · rcases List.mem_cons.mp hf2 with rfl | hf3
      · rfl
      · exact absurd hf3 (List.not_mem_nil f))
